import Mathlib

/-!
# QYStore — verification of the specified document-store engine

The repository ships the frontend plugin (`src/src/index.ts`) together with a
README describing the `q_store.QYStore` server-side engine (an append-only
update log with compression, periodic checkpointing, and TTL-based eviction,
configured by `db_path`, `document_ttl` and `checkpoint_interval`).  The engine
itself is not part of the reviewed sources, so its data model and operations
below are modelled from the specification; the plugin's `activate` function is
embedded from `src/src/index.ts` directly.
-/

namespace QYStore

/-- Payload bytes are modelled as lists of naturals. -/
abbrev Bytes := List Nat

/-! ## Codec -/

/-- Leading magic byte of the modelled encoding. -/
def MAGIC : Nat := 81

/-- Modelled from the spec: the Codec component is missing from the reviewed
sources.  The contract only demands a lossless, deterministic scheme with a
well-defined failure mode, so encoding is modelled as a magic byte, the
payload length, then the payload itself. -/
def encode (p : Bytes) : Bytes := MAGIC :: p.length :: p

/-- Modelled from the spec: decoding checks the magic byte and that the stored
length matches the remaining bytes; a truncated or malformed input yields
`none` (the `CorruptPayload` failure mode). -/
def decode (b : Bytes) : Option Bytes :=
  match b with
  | m :: n :: rest => if m = MAGIC ∧ rest.length = n then some rest else none
  | _ => none

/-! ## Data model -/

/-- Modelled from the spec: an update record — owning document implicit in the
containing `DocState`, strictly increasing per-document sequence number,
wall-clock timestamp, compressed payload bytes. -/
structure UpdateRecord where
  seq : Nat
  timestamp : Nat
  payload : Bytes
  deriving Repr, DecidableEq

/-- The logical document state produced by the external document-model
library: the ordered list of decoded update payloads applied so far (the
CRDT merge itself is out of scope, so application is kept free). -/
abbrev LogicalState := List Bytes

/-- Applying one decoded update to the logical state. -/
def applyUpdate (s : LogicalState) (p : Bytes) : LogicalState := s ++ [p]

/-- Modelled from the spec: a checkpoint — at most one per document — holding
the materialized state and the sequence number at which it was taken. -/
structure Checkpoint where
  seq : Nat
  state : LogicalState
  deriving Repr, DecidableEq

/-- Modelled from the spec: per-document storage — the monotonically
increasing sequence counter, the retained update records (all with sequence
number above the checkpoint's), the optional checkpoint, and the
last-activity timestamp used by the eviction manager. -/
structure DocState where
  counter : Nat
  records : List UpdateRecord
  checkpoint : Option Checkpoint
  lastActivity : Nat
  deriving Repr, DecidableEq

/-- A freshly created document: empty history, no checkpoint. -/
def freshDoc (now : Nat) : DocState :=
  { counter := 0, records := [], checkpoint := none, lastActivity := now }

/-- Replay a list of stored records on top of a logical state, decoding each
payload; fails if any stored payload is corrupt. -/
def replayRecords (s : LogicalState) : List UpdateRecord → Option LogicalState
  | [] => some s
  | r :: rest =>
    match decode r.payload with
    | some p => replayRecords (applyUpdate s p) rest
    | none => none

/-- The state a replay starts from: the checkpoint's materialized state, or
the empty state when the document has no checkpoint. -/
def baseState (d : DocState) : LogicalState :=
  match d.checkpoint with
  | some c => c.state
  | none => []

/-- The logical state of a document: replay of (checkpoint, remaining
records). -/
def logicalState (d : DocState) : Option LogicalState :=
  replayRecords (baseState d) d.records

/-! ## Checkpoint manager -/

/-- Modelled from the spec: compaction materializes the document's full state
by replaying checkpoint + all pending records, writes the new checkpoint at
the counter's high-water mark, and deletes the superseded records; on a
replay failure it leaves the log in its pre-compaction state. -/
def compact (d : DocState) : DocState :=
  match logicalState d with
  | some st =>
    { counter := d.counter, records := [],
      checkpoint := some { seq := d.counter, state := st },
      lastActivity := d.lastActivity }
  | none => d

/-! ## Configuration and store -/

/-- Modelled from the spec and README: the configuration surface, read once
at startup (`db_path`, `document_ttl` in seconds, `checkpoint_interval` in
updates). -/
structure Config where
  db_path : String
  document_ttl : Nat
  checkpoint_interval : Nat
  deriving Repr, DecidableEq

/-- The non-persistent in-memory sentinel value for `db_path`. -/
def memorySentinel : String := ":memory:"

/-- Whether the configured backing store is the in-memory variant. -/
def Config.inMemory (c : Config) : Bool := c.db_path == memorySentinel

/-- Modelled from the spec: consult the checkpoint manager after an append —
compaction triggers once the uncompacted record count reaches the configured
interval. -/
def maybeCompact (cfg : Config) (d : DocState) : DocState :=
  if cfg.checkpoint_interval ≤ d.records.length then compact d else d

/-- Write one update record: assign the next sequence number atomically with
the write of the compressed record, refreshing the activity timestamp. -/
def DocState.writeRecord (d : DocState) (p : Bytes) (now : Nat) : DocState :=
  { counter := d.counter + 1,
    records := d.records ++ [{ seq := d.counter + 1, timestamp := now, payload := encode p }],
    checkpoint := d.checkpoint,
    lastActivity := now }

/-- One append on a document: write the record, then consult the checkpoint
manager; returns the updated document and the assigned sequence number. -/
def docAppend (cfg : Config) (d : DocState) (p : Bytes) (now : Nat) : DocState × Nat :=
  (maybeCompact cfg (d.writeRecord p now), d.counter + 1)

/-- Modelled from the spec: the store facade's whole state — the immutable
configuration, the per-document table of the backing store, and the set of
in-process handles currently open. -/
structure Store where
  cfg : Config
  docs : String → Option DocState
  openKeys : List String

/-- A store with no documents and no open handles. -/
def emptyStore (cfg : Config) : Store :=
  { cfg := cfg, docs := fun _ => none, openKeys := [] }

/-- Record a key as holding an open in-process handle (idempotent). -/
def addKey (ks : List String) (k : String) : List String :=
  if k ∈ ks then ks else k :: ks

/-- Modelled from the spec: `open(doc_key)` — idempotent; creates the
document's storage lazily on first open and refreshes its activity. -/
def Store.openDoc (s : Store) (k : String) (now : Nat) : Store :=
  let d := match s.docs k with
    | some d0 => { d0 with lastActivity := now }
    | none => freshDoc now
  { s with docs := fun q => if q = k then some d else s.docs q,
           openKeys := addKey s.openKeys k }

/-- Modelled from the spec: `append_update(doc_key, payload) -> seq` — the
single write path; implicitly opens the document, invokes the codec and the
update log, then signals the checkpoint manager. -/
def Store.append_update (s : Store) (k : String) (p : Bytes) (now : Nat) : Store × Nat :=
  let d0 := match s.docs k with
    | some d => d
    | none => freshDoc now
  let r := docAppend s.cfg d0 p now
  ({ s with docs := fun q => if q = k then some r.1 else s.docs q,
            openKeys := addKey s.openKeys k }, r.2)

/-- Per-record retrieval errors surfaced by the store. -/
inductive StoreError
  | CorruptPayload (seq : Nat)
  deriving Repr, DecidableEq

/-- Decode a document's stored records in order: valid payloads are returned
in sequence order; each corrupt record is reported with its sequence number
instead of aborting the rest. -/
def decodeRecords : List UpdateRecord → List Bytes × List StoreError
  | [] => ([], [])
  | r :: rest =>
    let tail := decodeRecords rest
    match decode r.payload with
    | some p => (p :: tail.1, tail.2)
    | none => (tail.1, StoreError.CorruptPayload r.seq :: tail.2)

/-- Modelled from the spec: `get_updates(doc_key)` — the ordered decoded
payloads of a document's retained records, with per-record `CorruptPayload`
reports for records failing to decode. -/
def Store.get_updates (s : Store) (k : String) : List Bytes × List StoreError :=
  match s.docs k with
  | some d => decodeRecords d.records
  | none => ([], [])

/-- Modelled from the spec: `delete_document(doc_key)` — removes all records
and the checkpoint for a document; idempotent. -/
def Store.delete_document (s : Store) (k : String) : Store :=
  { s with docs := fun q => if q = k then none else s.docs q }

/-- Modelled from the spec: `close(doc_key)` — releases the in-process handle
without deleting stored data; idempotent. -/
def Store.close (s : Store) (k : String) : Store :=
  { s with openKeys := s.openKeys.filter (fun q => q != k) }

/-! ## Eviction manager -/

/-- Whether a document's last activity is older than the TTL at sweep time. -/
def DocState.expiredAt (d : DocState) (ttl now : Nat) : Bool :=
  decide (d.lastActivity + ttl < now)

/-- Whether the document stored under a key is expired at sweep time. -/
def Store.expiredKey (s : Store) (now : Nat) (k : String) : Bool :=
  match s.docs k with
  | some d => d.expiredAt s.cfg.document_ttl now
  | none => false

/-- Modelled from the spec: the periodic sweep — every document whose last
activity is older than the configured TTL is evicted: its in-process handle
is released and, in in-memory mode only, its stored data is discarded
(persistent rows remain). -/
def Store.sweep (s : Store) (now : Nat) : Store :=
  { cfg := s.cfg,
    docs := fun k => match s.docs k with
      | some d =>
        if d.expiredAt s.cfg.document_ttl now && s.cfg.inMemory then none else some d
      | none => none,
    openKeys := s.openKeys.filter (fun k => !(s.expiredKey now k)) }

/-! ## Iterated operations used to state the claims -/

/-- A sequence of appends to one document, issued one-at-a-time; returns the
final store and the sequence numbers in issue order. -/
def appendMany (s : Store) (k : String) (ps : List Bytes) (now : Nat) : Store × List Nat :=
  match ps with
  | [] => (s, [])
  | p :: rest =>
    let r := s.append_update k p now
    let r2 := appendMany r.1 k rest now
    (r2.1, r.2 :: r2.2)

/-- A linearized trace of appends across documents (the per-document
serialization of §5 means concurrent appends take effect one at a time);
returns the final store and, per append, the document key with the assigned
sequence number. -/
def runTrace (s : Store) : List (String × Bytes × Nat) → Store × List (String × Nat)
  | [] => (s, [])
  | (k, p, t) :: rest =>
    let r := s.append_update k p t
    let r2 := runTrace r.1 rest
    (r2.1, (k, r.2) :: r2.2)

/-- The sequence numbers a trace assigned to one document, in issue order. -/
def seqsFor (k : String) (res : List (String × Nat)) : List Nat :=
  (res.filter (fun e => e.1 == k)).map (fun e => e.2)

/-- The sequence counter currently recorded for a key (0 for an absent
document). -/
def Store.docCounter (s : Store) (k : String) : Nat :=
  match s.docs k with
  | some d => d.counter
  | none => 0

/-- Engine-level events on a single document: an update write, or a
compaction trigger at an arbitrary point. -/
inductive EngineOp
  | upd (p : Bytes) (t : Nat)
  | cp

/-- Run a list of engine events on a document. -/
def runOps (d : DocState) : List EngineOp → DocState
  | [] => d
  | EngineOp.upd p t :: rest => runOps (d.writeRecord p t) rest
  | EngineOp.cp :: rest => runOps (compact d) rest

/-- The full original payload sequence of a trace: every appended payload in
issue order — replaying the full original record set from sequence 1 yields
exactly this logical state. -/
def opsPayloads : List EngineOp → List Bytes
  | [] => []
  | EngineOp.upd p _ :: rest => p :: opsPayloads rest
  | EngineOp.cp :: rest => opsPayloads rest

/-- Every retained record of a document was produced by the write path, i.e.
stores a validly encoded payload. -/
def WFRecords (d : DocState) : Prop :=
  ∀ r ∈ d.records, ∃ q, r.payload = encode q

/-- The document-level effect of a sequence of appends through the write
path (record write followed by the checkpoint-manager consultation). -/
def docAppendMany (cfg : Config) (d : DocState) (ps : List Bytes) (now : Nat) : DocState :=
  match ps with
  | [] => d
  | p :: rest => docAppendMany cfg (docAppend cfg d p now).1 rest now

/-! ### Concrete fixtures used by the witnesses -/

/-- An in-memory configuration with a 5-second TTL and a checkpoint interval
of 10 updates. -/
def cfgMem : Config :=
  { db_path := ":memory:", document_ttl := 5, checkpoint_interval := 10 }

/-- A document holding three valid records followed by one record whose
stored bytes are truncated (the encoding of `[7]` missing its final byte). -/
def corruptDemoDoc : DocState :=
  { counter := 4,
    records := [{ seq := 1, timestamp := 0, payload := encode [1] },
                { seq := 2, timestamp := 1, payload := encode [2, 2] },
                { seq := 3, timestamp := 2, payload := encode [3] },
                { seq := 4, timestamp := 3, payload := [MAGIC, 1] }],
    checkpoint := none, lastActivity := 3 }

/-- A store holding `corruptDemoDoc` under the key `"doc"`. -/
def corruptDemoStore : Store :=
  { cfg := cfgMem,
    docs := fun q => if q = "doc" then some corruptDemoDoc else none,
    openKeys := ["doc"] }

/-- An open in-memory document holding one record, with no activity since
time 0. -/
def idleStore : Store :=
  { cfg := cfgMem,
    docs := fun q =>
      if q = "doc" then
        some { counter := 1,
               records := [{ seq := 1, timestamp := 0, payload := encode [9] }],
               checkpoint := none, lastActivity := 0 }
      else none,
    openKeys := ["doc"] }

/-- An open in-memory document last appended-to at time 4 (2 seconds before
the sweep at time 6). -/
def activeStore : Store :=
  { cfg := cfgMem,
    docs := fun q => if q = "doc" then some (freshDoc 4) else none,
    openKeys := ["doc"] }

end QYStore

namespace Plugin

/-- One browser-console entry emitted by the plugin. -/
inductive ConsoleEntry
  | log (msg : String)
  | errorLog (msg : String)
  deriving Repr, DecidableEq

/-- A request issued through `requestAPI`: the endpoint and the optional
request body (`requestAPI('get-example')` passes no body). -/
structure Request where
  endpoint : String
  body : Option String
  deriving Repr, DecidableEq

/-- The single status request `requestAPI('get-example')` issued by
`plugin.activate` in `src/src/index.ts`: endpoint `get-example`, no body and
hence no document data. -/
def statusRequest : Request := { endpoint := "get-example", body := none }

/-- Embedding of `plugin.activate` from `src/src/index.ts`.  The outcome of
the status request (resolution with data, or rejection with a reason) is
passed in explicitly; the function returns the requests issued and the
console entries produced.  The `.then`/`.catch` chain handles both outcomes,
so the embedding is total: no exception or unhandled rejection escapes to
the host application. -/
def activate (outcome : Except String String) : List Request × List ConsoleEntry :=
  ([statusRequest],
    ConsoleEntry.log "JupyterLab extension qStore is activated!" ::
      match outcome with
      | Except.ok data => [ConsoleEntry.log data]
      | Except.error reason =>
        [ConsoleEntry.errorLog
          ("The q_store server extension appears to be missing.\n" ++ reason)])

end Plugin

/-! ## Helper lemmas -/

namespace QYStore

theorem decode_encode (p : Bytes) : decode (encode p) = some p := by
  simp [encode, decode]

theorem compact_counter (d : DocState) : (compact d).counter = d.counter := by
  cases h : logicalState d <;> simp [compact, h]

theorem compact_lastActivity (d : DocState) :
    (compact d).lastActivity = d.lastActivity := by
  cases h : logicalState d <;> simp [compact, h]

theorem maybeCompact_counter (cfg : Config) (d : DocState) :
    (maybeCompact cfg d).counter = d.counter := by
  by_cases h : cfg.checkpoint_interval ≤ d.records.length <;>
    simp [maybeCompact, h, compact_counter]

theorem docAppend_seq (cfg : Config) (d : DocState) (p : Bytes) (now : Nat) :
    (docAppend cfg d p now).2 = d.counter + 1 := rfl

theorem docAppend_counter (cfg : Config) (d : DocState) (p : Bytes) (now : Nat) :
    (docAppend cfg d p now).1.counter = d.counter + 1 := by
  simp [docAppend, maybeCompact_counter, DocState.writeRecord]

theorem append_update_seq (s : Store) (k : String) (p : Bytes) (now : Nat) :
    (s.append_update k p now).2 = s.docCounter k + 1 := by
  cases h : s.docs k <;> simp [Store.append_update, Store.docCounter, h, docAppend_seq, freshDoc]

theorem append_update_docs_self (s : Store) (k : String) (p : Bytes) (now : Nat) :
    (s.append_update k p now).1.docs k =
      some (docAppend s.cfg (match s.docs k with | some d => d | none => freshDoc now) p now).1 := by
  simp [Store.append_update]

theorem append_update_docs_ne (s : Store) (k q : String) (p : Bytes) (now : Nat)
    (h : q ≠ k) : (s.append_update k p now).1.docs q = s.docs q := by
  simp [Store.append_update, h]

theorem append_update_counter_self (s : Store) (k : String) (p : Bytes) (now : Nat) :
    (s.append_update k p now).1.docCounter k = s.docCounter k + 1 := by
  rw [Store.docCounter, append_update_docs_self]
  cases h : s.docs k <;> simp [h, Store.docCounter, docAppend_counter, freshDoc]

theorem append_update_counter_ne (s : Store) (k q : String) (p : Bytes) (now : Nat)
    (h : q ≠ k) : (s.append_update k p now).1.docCounter q = s.docCounter q := by
  rw [Store.docCounter, append_update_docs_ne s k q p now h, Store.docCounter]

theorem append_update_cfg (s : Store) (k : String) (p : Bytes) (now : Nat) :
    (s.append_update k p now).1.cfg = s.cfg := rfl

theorem appendMany_seqs (ps : List Bytes) (s : Store) (k : String) (now : Nat) :
    (appendMany s k ps now).2 = List.range' (s.docCounter k + 1) ps.length := by
  induction ps generalizing s with
  | nil => simp [appendMany]
  | cons p rest ih =>
    simp only [appendMany, List.length_cons, List.range'_succ]
    refine congrArg₂ List.cons (append_update_seq s k p now) ?_
    rw [ih, append_update_counter_self]

end QYStore

/-! ## Claims -/

namespace QYStore

/-- C1: starting from a fresh document with no checkpoint, a sequence of
appends issued one-at-a-time returns exactly the sequence numbers
1, 2, 3, … in issue order, with no gaps and no duplicates. -/
theorem append_seq_numbers_consecutive (s : Store) (k : String) (ps : List Bytes)
    (now : Nat) (hfresh : s.docs k = none) :
    (appendMany s k ps now).2 = List.range' 1 ps.length := by
  rw [appendMany_seqs]
  simp [Store.docCounter, hfresh]

/-- Witness for C1: three appends to a fresh in-memory store return exactly
[1, 2, 3]. -/
theorem append_seq_numbers_consecutive_witness :
    (appendMany (emptyStore { db_path := ":memory:", document_ttl := 5, checkpoint_interval := 400 })
      "doc" [[0], [1, 2], []] 0).2 = [1, 2, 3] := by
  rw [append_seq_numbers_consecutive _ "doc" _ 0 rfl]
  rfl

/-- C2: the codec is lossless — for every payload `p`,
`decode (encode p) = some p` (round-trip law). -/
theorem codec_round_trip (p : Bytes) : decode (encode p) = some p :=
  decode_encode p

end QYStore

namespace Plugin

/-- C10: on activation the plugin issues exactly one status request, to the
`get-example` endpoint, carrying no body (hence no document data); whatever
the outcome, `activate` only logs — the response data after a resolution, an
error message naming the missing `q_store` server extension after a
rejection — and, being total, never propagates an exception or unhandled
rejection to the host application. -/
theorem activate_single_status_request (o : Except String String) :
    (activate o).1 = [{ endpoint := "get-example", body := none }] ∧
    (activate o).2 =
      ConsoleEntry.log "JupyterLab extension qStore is activated!" ::
        (match o with
         | Except.ok data => [ConsoleEntry.log data]
         | Except.error reason =>
           [ConsoleEntry.errorLog
             ("The q_store server extension appears to be missing.\n" ++ reason)]) := by
  exact ⟨rfl, rfl⟩

end Plugin

namespace QYStore

theorem replayRecords_append (a b : List UpdateRecord) (s : LogicalState) :
    replayRecords s (a ++ b) =
      match replayRecords s a with
      | some st => replayRecords st b
      | none => none := by
  induction a generalizing s with
  | nil => simp [replayRecords]
  | cons r t ih =>
    simp only [List.cons_append, replayRecords]
    cases decode r.payload <;> simp [ih]

theorem baseState_writeRecord (d : DocState) (p : Bytes) (t : Nat) :
    baseState (d.writeRecord p t) = baseState d := rfl

theorem logicalState_writeRecord (d : DocState) (p : Bytes) (t : Nat) :
    logicalState (d.writeRecord p t) = (logicalState d).map (fun st => st ++ [p]) := by
  unfold logicalState
  rw [baseState_writeRecord]
  show replayRecords (baseState d) (d.records ++ [_]) = _
  rw [replayRecords_append]
  cases h : replayRecords (baseState d) d.records <;>
    simp [replayRecords, decode_encode, applyUpdate]

theorem logicalState_compact (d : DocState) :
    logicalState (compact d) = logicalState d := by
  cases h : logicalState d with
  | none =>
    have hc : compact d = d := by unfold compact; rw [h]
    rw [hc, h]
  | some st =>
    have hc : compact d =
        { counter := d.counter, records := [],
          checkpoint := some { seq := d.counter, state := st },
          lastActivity := d.lastActivity } := by
      unfold compact; rw [h]
    rw [hc]
    simp [logicalState, baseState, replayRecords]

theorem runOps_logical (ops : List EngineOp) (d : DocState) :
    logicalState (runOps d ops) = (logicalState d).map (fun st => st ++ opsPayloads ops) := by
  induction ops generalizing d with
  | nil => cases h : logicalState d <;> simp [runOps, opsPayloads, h]
  | cons op rest ih =>
    cases op with
    | upd p t =>
      simp only [runOps, opsPayloads]
      rw [ih, logicalState_writeRecord]
      cases h : logicalState d <;> simp [h]
    | cp =>
      simp only [runOps, opsPayloads]
      rw [ih, logicalState_compact]

/-- C3: for a document built from a fresh start by any interleaving of
update writes and compaction triggers (compaction at any point), replaying
the pair (checkpoint, remaining records above the checkpoint's sequence
number) yields exactly the full original payload sequence in issue order —
the same logical state that replaying the full original record set from
sequence 1 produces. -/
theorem compaction_preserves_logical_state (ops : List EngineOp) (t0 : Nat) :
    logicalState (runOps (freshDoc t0) ops) = some (opsPayloads ops) := by
  rw [runOps_logical]
  simp [logicalState, freshDoc, baseState, replayRecords]

theorem seqsFor_cons (k k' : String) (n : Nat) (res : List (String × Nat)) :
    seqsFor k ((k', n) :: res) =
      if k' = k then n :: seqsFor k res else seqsFor k res := by
  by_cases h : k' = k <;> simp [seqsFor, List.filter_cons, h]

theorem runTrace_chain (ops : List (String × Bytes × Nat)) (s : Store) (k : String) :
    List.Chain' (· < ·) (s.docCounter k :: seqsFor k (runTrace s ops).2) := by
  induction ops generalizing s with
  | nil => simp [runTrace, seqsFor]
  | cons op rest ih =>
    obtain ⟨k', p, t⟩ := op
    simp only [runTrace]
    rw [seqsFor_cons]
    by_cases h : k' = k
    · subst h
      rw [if_pos rfl, append_update_seq, List.chain'_cons]
      refine ⟨Nat.lt_succ_self _, ?_⟩
      have hih := ih (s.append_update k' p t).1
      rwa [append_update_counter_self] at hih
    · rw [if_neg h]
      have hih := ih (s.append_update k' p t).1
      rwa [append_update_counter_ne s k' k p t (fun hq => h hq.symm)] at hih

/-- C4: in any linearized trace of appends (appends to one document are
serialized per §5, so concurrent appenders take effect one at a time), the
sequence numbers assigned to a fixed document are strictly increasing in
issue order — if append A returns before append B is issued, A's number is
strictly below B's — and in particular no two update records of one
document ever claim the same sequence number. -/
theorem per_document_appends_linearized (s : Store) (ops : List (String × Bytes × Nat))
    (k : String) :
    List.Pairwise (· < ·) (seqsFor k (runTrace s ops).2) ∧
    (seqsFor k (runTrace s ops).2).Nodup := by
  have hch := runTrace_chain ops s k
  have hp : List.Pairwise (· < ·) (seqsFor k (runTrace s ops).2) := by
    have hpw := List.chain'_iff_pairwise.mp hch
    exact (List.pairwise_cons.mp hpw).2
  exact ⟨hp, hp.imp Nat.ne_of_lt⟩

theorem decodeRecords_append (a b : List UpdateRecord) :
    decodeRecords (a ++ b) =
      ((decodeRecords a).1 ++ (decodeRecords b).1,
       (decodeRecords a).2 ++ (decodeRecords b).2) := by
  induction a with
  | nil => simp [decodeRecords]
  | cons r t ih =>
    simp only [List.cons_append, decodeRecords]
    cases decode r.payload <;> simp [ih]

/-- C5: when a document's stored history is a run of valid records followed
by a record whose stored bytes fail to decode, `get_updates` still returns
every valid decoded payload and reports a `CorruptPayload` error carrying
the failing record's sequence number, instead of failing the whole call. -/
theorem get_updates_corrupt_record (s : Store) (k : String) (d : DocState)
    (rs : List UpdateRecord) (ps : List Bytes) (bad : UpdateRecord)
    (hd : s.docs k = some d) (hrec : d.records = rs ++ [bad])
    (hok : decodeRecords rs = (ps, [])) (hbad : decode bad.payload = none) :
    s.get_updates k = (ps, [StoreError.CorruptPayload bad.seq]) := by
  simp only [Store.get_updates, hd]
  rw [hrec, decodeRecords_append, hok]
  simp [decodeRecords, hbad]

/-- Witness for C5: on the concrete document with 3 valid records followed
by one truncated record, `get_updates` returns the 3 valid payloads and a
`CorruptPayload` report for sequence number 4. -/
theorem get_updates_corrupt_record_witness :
    corruptDemoStore.get_updates "doc" =
      ([[1], [2, 2], [3]], [StoreError.CorruptPayload 4]) := by
  exact get_updates_corrupt_record corruptDemoStore "doc" corruptDemoDoc
    [{ seq := 1, timestamp := 0, payload := encode [1] },
     { seq := 2, timestamp := 1, payload := encode [2, 2] },
     { seq := 3, timestamp := 2, payload := encode [3] }]
    [[1], [2, 2], [3]]
    { seq := 4, timestamp := 3, payload := [MAGIC, 1] }
    (by decide) rfl (by decide) (by decide)

theorem filter_twice (p : α → Bool) (l : List α) :
    (l.filter p).filter p = l.filter p := by
  induction l with
  | nil => rfl
  | cons a t ih => cases h : p a <;> simp [List.filter_cons, h, ih]

/-- C8: `delete_document` and `close` are idempotent — a second call on the
same key produces no error (both are total) and no state change beyond the
first call's effect. -/
theorem delete_and_close_idempotent (s : Store) (k : String) :
    (s.delete_document k).delete_document k = s.delete_document k ∧
    (s.close k).close k = s.close k := by
  constructor
  · simp only [Store.delete_document]
    congr 1
    funext q
    by_cases h : q = k <;> simp [h]
  · simp only [Store.close]
    congr 1
    exact filter_twice _ _

end QYStore

namespace QYStore

theorem writeRecord_counter (d : DocState) (p : Bytes) (t : Nat) :
    (d.writeRecord p t).counter = d.counter + 1 := rfl

theorem writeRecord_records_length (d : DocState) (p : Bytes) (t : Nat) :
    (d.writeRecord p t).records.length = d.records.length + 1 := by
  simp [DocState.writeRecord]

theorem writeRecord_lastActivity (d : DocState) (p : Bytes) (t : Nat) :
    (d.writeRecord p t).lastActivity = t := rfl

theorem writeRecord_wf (d : DocState) (p : Bytes) (t : Nat) (h : WFRecords d) :
    WFRecords (d.writeRecord p t) := by
  intro r hr
  simp only [DocState.writeRecord, List.mem_append, List.mem_singleton] at hr
  cases hr with
  | inl hh => exact h r hh
  | inr hh => exact ⟨p, by rw [hh]⟩

theorem replayRecords_total (rs : List UpdateRecord) (s : LogicalState)
    (h : ∀ r ∈ rs, ∃ q, r.payload = encode q) :
    ∃ st, replayRecords s rs = some st := by
  induction rs generalizing s with
  | nil => exact ⟨s, rfl⟩
  | cons r t ih =>
    obtain ⟨q, hq⟩ := h r (List.mem_cons_self r t)
    obtain ⟨st, hst⟩ := ih (applyUpdate s q) (fun x hx => h x (List.mem_cons_of_mem r hx))
    exact ⟨st, by simp [replayRecords, hq, decode_encode, hst]⟩

theorem compact_of_wf (d : DocState) (h : WFRecords d) :
    ∃ st, compact d =
      { counter := d.counter, records := [],
        checkpoint := some { seq := d.counter, state := st },
        lastActivity := d.lastActivity } := by
  obtain ⟨st, hst⟩ := replayRecords_total d.records (baseState d) h
  have hls : logicalState d = some st := hst
  exact ⟨st, by unfold compact; rw [hls]⟩

theorem docAppendMany_append_eq (cfg : Config) (a b : List Bytes) (d : DocState) (now : Nat) :
    docAppendMany cfg d (a ++ b) now = docAppendMany cfg (docAppendMany cfg d a now) b now := by
  induction a generalizing d with
  | nil => rfl
  | cons p t ih => simp [docAppendMany, ih]

theorem docAppendMany_below (cfg : Config) (ps : List Bytes) (d : DocState) (now : Nat)
    (hwf : WFRecords d)
    (hlen : d.records.length + ps.length < cfg.checkpoint_interval) :
    (docAppendMany cfg d ps now).counter = d.counter + ps.length ∧
    (docAppendMany cfg d ps now).records.length = d.records.length + ps.length ∧
    WFRecords (docAppendMany cfg d ps now) := by
  induction ps generalizing d with
  | nil => exact ⟨by simp [docAppendMany], by simp [docAppendMany], hwf⟩
  | cons p rest ih =>
    have hlt : (d.writeRecord p now).records.length < cfg.checkpoint_interval := by
      rw [writeRecord_records_length]
      simp only [List.length_cons] at hlen
      omega
    have hstep : (docAppend cfg d p now).1 = d.writeRecord p now := by
      simp [docAppend, maybeCompact, Nat.not_le.mpr hlt]
    have hlen2 : (d.writeRecord p now).records.length + rest.length <
        cfg.checkpoint_interval := by
      rw [writeRecord_records_length]
      simp only [List.length_cons] at hlen
      omega
    obtain ⟨h1, h2, h3⟩ := ih (d.writeRecord p now) (writeRecord_wf d p now hwf) hlen2
    refine ⟨?_, ?_, ?_⟩
    · rw [docAppendMany, hstep, h1, writeRecord_counter]
      simp only [List.length_cons]
      omega
    · rw [docAppendMany, hstep, h2, writeRecord_records_length]
      simp only [List.length_cons]
      omega
    · rw [docAppendMany, hstep]
      exact h3

theorem docAppendMany_ten (cfg : Config) (ps : List Bytes) (t : Nat)
    (hc : cfg.checkpoint_interval = 10) (hlen : ps.length = 10) :
    ∃ st, docAppendMany cfg (freshDoc t) ps t =
      { counter := 10, records := [],
        checkpoint := some { seq := 10, state := st }, lastActivity := t } := by
  obtain ⟨qs, p, rfl⟩ : ∃ qs p, ps = qs ++ [p] := by
    rcases List.eq_nil_or_concat ps with h | ⟨qs, p, h⟩
    · rw [h] at hlen; cases hlen
    · exact ⟨qs, p, by simpa [List.concat_eq_append] using h⟩
  have hqs : qs.length = 9 := by
    simp only [List.length_append, List.length_singleton] at hlen
    omega
  rw [docAppendMany_append_eq]
  have hfwf : WFRecords (freshDoc t) := by
    intro r hr; simp [freshDoc] at hr
  obtain ⟨h9c, h9l, h9wf⟩ := docAppendMany_below cfg qs (freshDoc t) t hfwf
    (by simp [freshDoc, hqs, hc])
  set d9 := docAppendMany cfg (freshDoc t) qs t
  have h9c' : d9.counter = 9 := by simpa [freshDoc, hqs] using h9c
  have h9l' : d9.records.length = 9 := by simpa [freshDoc, hqs] using h9l
  have hwfw := writeRecord_wf d9 p t h9wf
  have htrig : cfg.checkpoint_interval ≤ (d9.writeRecord p t).records.length := by
    rw [writeRecord_records_length, h9l', hc]
  have hstep : (docAppend cfg d9 p t).1 = compact (d9.writeRecord p t) := by
    simp [docAppend, maybeCompact, htrig]
  obtain ⟨st, hcp⟩ := compact_of_wf (d9.writeRecord p t) hwfw
  refine ⟨st, ?_⟩
  show docAppendMany cfg d9 [p] t = _
  rw [docAppendMany, docAppendMany, hstep, hcp]
  simp [DocState.writeRecord, h9c']

theorem appendMany_docs_some (ps : List Bytes) (s : Store) (k : String) (now : Nat)
    (d : DocState) (hd : s.docs k = some d) :
    (appendMany s k ps now).1.docs k = some (docAppendMany s.cfg d ps now) := by
  induction ps generalizing s d with
  | nil => simpa [appendMany, docAppendMany] using hd
  | cons p rest ih =>
    simp only [appendMany, docAppendMany]
    have hdocs : (s.append_update k p now).1.docs k =
        some (docAppend s.cfg d p now).1 := by
      rw [append_update_docs_self]
      simp [hd]
    exact ih (s.append_update k p now).1 (docAppend s.cfg d p now).1 hdocs

theorem appendMany_docs_fresh (ps : List Bytes) (p : Bytes) (s : Store) (k : String)
    (now : Nat) (hd : s.docs k = none) :
    (appendMany s k (p :: ps) now).1.docs k =
      some (docAppendMany s.cfg (freshDoc now) (p :: ps) now) := by
  simp only [appendMany, docAppendMany]
  apply appendMany_docs_some
  rw [append_update_docs_self]
  simp [hd]

/-- C6: with a checkpoint interval of 10 updates, after exactly 10 appends
to a fresh document a checkpoint exists for it with sequence number 10, and
zero update records with sequence number ≤ 10 remain. -/
theorem checkpoint_after_ten_appends (s : Store) (k : String) (ps : List Bytes)
    (now : Nat) (hfresh : s.docs k = none)
    (hc : s.cfg.checkpoint_interval = 10) (hlen : ps.length = 10) :
    ∃ d cp, (appendMany s k ps now).1.docs k = some d ∧
      d.checkpoint = some cp ∧ cp.seq = 10 ∧
      d.records.filter (fun r => decide (r.seq ≤ 10)) = [] := by
  obtain ⟨p, rest, rfl⟩ : ∃ p rest, ps = p :: rest := by
    cases ps with
    | nil => cases hlen
    | cons p rest => exact ⟨p, rest, rfl⟩
  obtain ⟨st, hdoc⟩ := docAppendMany_ten s.cfg (p :: rest) now hc hlen
  refine ⟨docAppendMany s.cfg (freshDoc now) (p :: rest) now,
    { seq := 10, state := st }, appendMany_docs_fresh rest p s k now hfresh, ?_, rfl, ?_⟩
  · rw [hdoc]
  · rw [hdoc]
    rfl

/-- Witness for C6: ten concrete appends to a fresh in-memory store with
checkpoint interval 10 leave a sequence-10 checkpoint and no residual
records. -/
theorem checkpoint_after_ten_appends_witness :
    ∃ d cp,
      (appendMany (emptyStore cfgMem) "doc" (List.replicate 10 [1]) 0).1.docs "doc" = some d ∧
      d.checkpoint = some cp ∧ cp.seq = 10 ∧
      d.records.filter (fun r => decide (r.seq ≤ 10)) = [] :=
  checkpoint_after_ten_appends (emptyStore cfgMem) "doc" (List.replicate 10 [1]) 0
    rfl rfl rfl

end QYStore

namespace QYStore

/-- C7: a document is evicted by a sweep exactly when its last-activity
timestamp is older than the configured TTL at sweep time: its open
in-process handle is released precisely then, and in in-memory mode its
stored data is discarded precisely then.  In particular, with a TTL of 5
seconds a document idle for 6 seconds is evicted by the next sweep, while a
document appended-to 2 seconds before the sweep is not. -/
theorem sweep_evicts_iff_ttl_elapsed (s : Store) (k : String) (d : DocState)
    (now : Nat) (hd : s.docs k = some d) (hk : k ∈ s.openKeys) :
    (k ∉ (s.sweep now).openKeys ↔ d.lastActivity + s.cfg.document_ttl < now) ∧
    (s.cfg.inMemory = true →
      ((s.sweep now).docs k = none ↔ d.lastActivity + s.cfg.document_ttl < now)) := by
  constructor
  · rw [Store.sweep]
    simp only [List.mem_filter]
    constructor
    · intro hnot
      by_contra hlt
      exact hnot ⟨hk, by simp [Store.expiredKey, hd, DocState.expiredAt, hlt]⟩
    · intro hlt hmem
      have hbool := hmem.2
      simp [Store.expiredKey, hd, DocState.expiredAt, hlt] at hbool
  · intro hm
    have hdocs : (s.sweep now).docs k =
        if d.expiredAt s.cfg.document_ttl now && s.cfg.inMemory then none
        else some d := by
      simp [Store.sweep, hd]
    rw [hdocs, hm]
    by_cases hlt : d.lastActivity + s.cfg.document_ttl < now <;>
      simp [DocState.expiredAt, hlt]

/-- Witness for C7: with a 5-second TTL, the document idle since time 0 is
evicted by the sweep at time 6 (handle released and, in-memory, data
discarded), while the document active at time 4 survives that sweep. -/
theorem sweep_evicts_iff_ttl_elapsed_witness :
    "doc" ∉ (idleStore.sweep 6).openKeys ∧
    (idleStore.sweep 6).docs "doc" = none ∧
    "doc" ∈ (activeStore.sweep 6).openKeys ∧
    (activeStore.sweep 6).docs "doc" = some (freshDoc 4) := by
  have hidle := sweep_evicts_iff_ttl_elapsed idleStore "doc"
    { counter := 1,
      records := [{ seq := 1, timestamp := 0, payload := encode [9] }],
      checkpoint := none, lastActivity := 0 } 6 rfl (by simp [idleStore])
  have hact := sweep_evicts_iff_ttl_elapsed activeStore "doc" (freshDoc 4) 6 rfl
    (by simp [activeStore])
  refine ⟨hidle.1.mpr (by decide), (hidle.2 rfl).mpr (by decide), ?_, by decide⟩
  by_contra hnot
  exact absurd (hact.1.mp hnot) (by decide)

/-- C9: in in-memory mode (the non-persistent `:memory:` sentinel), once a
document has been evicted by a sweep, reopening the same key yields an
empty update history — no prior update data survives eviction. -/
theorem inmemory_eviction_empty_history (s : Store) (k : String) (d : DocState)
    (now now2 : Nat) (hm : s.cfg.inMemory = true) (hd : s.docs k = some d)
    (hexp : d.lastActivity + s.cfg.document_ttl < now) :
    ((s.sweep now).openDoc k now2).get_updates k = ([], []) := by
  have hdocs : (s.sweep now).docs k = none := by
    simp [Store.sweep, hd, DocState.expiredAt, hexp, hm]
  simp [Store.openDoc, hdocs, Store.get_updates, freshDoc, decodeRecords]

/-- Witness for C9: the evicted in-memory document, reopened at time 7,
has an empty update history even though it held a record before the
sweep. -/
theorem inmemory_eviction_empty_history_witness :
    ((idleStore.sweep 6).openDoc "doc" 7).get_updates "doc" = ([], []) :=
  inmemory_eviction_empty_history idleStore "doc"
    { counter := 1,
      records := [{ seq := 1, timestamp := 0, payload := encode [9] }],
      checkpoint := none, lastActivity := 0 } 6 7 rfl rfl (by decide)

end QYStore
